import Mathlib

set_option maxHeartbeats 1000000

/-!
# Verification of the dependency-explorer core

Shallow embedding of the core logic of `src/src/App.jsx` (and the identical
`buildDepsMaps` in `src/unnamed/part_000`):

* `applyOverrides` — the override applier (App.jsx lines 33–69);
* `buildDepsMaps` — the graph builder (App.jsx lines 71–98);
* the query surface (`sortAlpha`, `normalizeType`, `allTypes`,
  `filteredTypes`, `dependsOn`, `dependencyFor`, App.jsx lines 8–16 and
  232–253);
* the active-selection state handling (App.jsx lines 243, 293–298, 307–310);
* a reference-tracking variant of `applyOverrides` that records which
  `dependencies` arrays are freshly allocated and which are shared, used to
  settle the structural-independence claim.

JavaScript `Map`s and `Set`s are modelled by insertion-ordered association
lists / duplicate-free lists, string comparison by Lean's code-point order
(standing in for `localeCompare`), and character-list based `strTrim` /
`strToLower` stand in for the JavaScript `trim()` / `toLowerCase()`.
-/

/-- A JavaScript value appearing inside a `dependencies` array: either a
string or some non-string value (tagged by a `Nat` so that distinct
non-string entries stay distinguishable). -/
inductive JEntry where
  | str (s : String)
  | nonstr (tag : Nat)
deriving DecidableEq, Repr

/-- The string carried by a `JEntry`, if it is one
(`typeof d === "string"`). -/
def JEntry.str? : JEntry → Option String
  | .str s => some s
  | .nonstr _ => none

/-- The string entries of a dependency array, in order
(`current.filter((d) => typeof d === "string")`). -/
def strEntries (l : List JEntry) : List String := l.filterMap JEntry.str?

/-- One element of the `resources` array.  `type = some t` models an element
whose `type` field is the string `t`; `type = none` models every other case
(field absent or non-string; a `null`/falsy/non-object array element also
behaves exactly like this because reading `.type` on it yields a non-string,
and spreading it yields an object without a `type` field).
`dependencies = some l` models an array-valued field; `none` models an
absent or non-array field (the `Array.isArray` test fails). -/
structure JRecord where
  type : Option String
  dependencies : Option (List JEntry)
deriving DecidableEq, Repr

/-- The parsed dependency document.  `resources = some l` models a document
whose `resources` field is an array, `none` models a falsy document or a
missing/non-array `resources` field (`!raw || !Array.isArray(raw.resources)`).
Other top-level fields (`version`, …) take no part in the core logic. -/
structure JDoc where
  resources : Option (List JRecord)
deriving DecidableEq, Repr

/-- The parsed overrides value.  `notobj` models `null` and non-object
values (`!overrides || typeof overrides !== "object"`).  `obj add repl`
models an object: `add = some entries` is an object-valued
`addDependencies` field given as its `Object.entries` list (`none`: field
absent, falsy, or non-object); each entry's value is `some l` for an
array value and `none` otherwise (`Array.isArray(additions)` fails).
`repl` models a `replaceDependencies` field in the same spirit; note that
the code of `applyOverrides` never reads this field. -/
inductive JOverrides where
  | notobj
  | obj (addDependencies : Option (List (String × Option (List JEntry))))
      (replaceDependencies : Option (List (String × List (String × String))))
deriving DecidableEq, Repr

/-- JavaScript `set.add(x)` on a `Set` represented by its insertion-ordered
element list: append `x` if it is absent, keep the list otherwise. -/
def insertLast (l : List String) (x : String) : List String :=
  if x ∈ l then l else l ++ [x]

/-- JavaScript `new Set(l)` spread back into an array: the first occurrences of the
elements of `l`, in order. -/
def jsSetOfList (l : List String) : List String :=
  l.foldl insertLast []

/-- JavaScript `s.trim()`: drop whitespace from both ends, modelled over
the character list (`Char.isWhitespace` standing in for the JavaScript
whitespace class). -/
def strTrim (s : String) : String :=
  ⟨((s.data.dropWhile Char.isWhitespace).reverse.dropWhile Char.isWhitespace).reverse⟩

/-- JavaScript `s.toLowerCase()`, modelled character-wise over the
character list. -/
def strToLower (s : String) : String := ⟨s.data.map Char.toLower⟩

/-- The loop `for (const dep of additions) { if (typeof dep === "string"
&& dep.trim()) set.add(dep.trim()); }` of `applyOverrides`
(App.jsx lines 61–63), folded over a set-as-list. -/
def addFold (base : List String) (additions : List JEntry) : List String :=
  additions.foldl
    (fun acc d =>
      match d with
      | .str s => if strTrim s = "" then acc else insertLast acc (strTrim s)
      | .nonstr _ => acc)
    base

/-- The per-override-entry update of `applyOverrides` (App.jsx lines
58–65): take the record's current dependency array (or `[]` if absent or
not an array), keep its string entries as a JavaScript `Set`, add every
string addition whose trim is non-empty, and store the spread set back
into the `dependencies` field. -/
def updateRec (r : JRecord) (additions : List JEntry) : JRecord :=
  let current := strEntries (r.dependencies.getD [])
  let final := addFold (jsSetOfList current) additions
  { r with dependencies := some (final.map JEntry.str) }

/-- The index `byType` (App.jsx lines 47–50) maps each string type to the **last**
resources entry carrying it (`Map.set` overwrites earlier entries), and
`r.dependencies = [...]` updates that record in place.  Over a list of
records this reads: update the last record whose `type` is `t`, if any,
and leave every other record untouched. -/
def updateLastOfType (res : List JRecord) (t : String) (additions : List JEntry) :
    List JRecord :=
  match res with
  | [] => []
  | r :: rest =>
    if rest.any (fun x => x.type == some t) then
      r :: updateLastOfType rest t additions
    else if r.type == some t then updateRec r additions :: rest
    else r :: rest

/-- One iteration of the loop `for (const [type, additions] of
Object.entries(add))` of `applyOverrides` (App.jsx lines 52–66): skip
non-array additions (`!Array.isArray(additions)`), skip types with no
record (`byType.get` misses), otherwise update the indexed (= last)
record. -/
def addStep (acc : List JRecord) (e : String × Option (List JEntry)) : List JRecord :=
  match e.2 with
  | none => acc
  | some additions => updateLastOfType acc e.1 additions

/-- The whole `Object.entries(add)` loop of `applyOverrides`. -/
def applyAdds (res : List JRecord)
    (entries : List (String × Option (List JEntry))) : List JRecord :=
  entries.foldl addStep res

/-- The function `applyOverrides(raw, overrides)` (App.jsx lines 33–69).  Early-returns
the document untouched when the document has no resources array, when the
overrides value is not an object, or when its `addDependencies` field is
not an object; otherwise rebuilds the resources list with the additions
applied.  The `replaceDependencies` field of the overrides is never read. -/
def applyOverrides (raw : JDoc) (overrides : JOverrides) : JDoc :=
  match raw.resources with
  | none => raw
  | some res =>
    match overrides with
    | .notobj => raw
    | .obj addM _ =>
      match addM with
      | none => raw
      | some entries => { resources := some (applyAdds res entries) }

/-- A JavaScript `Map` from strings to `Set`s of strings, modelled as an
insertion-ordered association list whose values are insertion-ordered
duplicate-free lists. -/
abbrev JMap := List (String × List String)

/-- Model of `m.has(k)`. -/
def mapHas (m : JMap) (k : String) : Bool := m.any (fun p => p.1 == k)

/-- Model of `m.get(k)` (`none` = `undefined`). -/
def mapGet (m : JMap) (k : String) : Option (List String) :=
  (m.find? (fun p => p.1 == k)).map (·.2)

/-- Model of `m.get(k) || []`: the set stored at `k`, or the empty set. -/
def valueAt (m : JMap) (k : String) : List String := (mapGet m k).getD []

/-- Model of `if (!m.has(k)) m.set(k, new Set())`. -/
def mapEnsure (m : JMap) (k : String) : JMap :=
  if mapHas m k then m else m ++ [(k, [])]

/-- Model of `m.get(k).add(v)`: add `v` to the set stored under `k` (a no-op when
`k` is absent; the builder only calls it on ensured keys). -/
def mapAddTo (m : JMap) (k : String) (v : String) : JMap :=
  m.map (fun p => if p.1 == k then (p.1, insertLast p.2 v) else p)

/-- Inner loop of `buildDepsMaps` over one record's dependency entries
(App.jsx lines 87–92): skip non-strings; otherwise register the forward
edge and the reverse edge. -/
def depStep (src : String) (p : JMap × JMap) (d : JEntry) : JMap × JMap :=
  match d with
  | .nonstr _ => p
  | .str s => (mapAddTo p.1 src s, mapAddTo (mapEnsure p.2 s) s src)

/-- Body of the `for (const r of raw.resources)` loop of `buildDepsMaps`
(App.jsx lines 79–95): skip records whose `type` is not a string;
otherwise ensure the forward key, process the dependency entries, and
finally ensure the reverse key. -/
def buildStep (p : JMap × JMap) (r : JRecord) : JMap × JMap :=
  match r.type with
  | none => p
  | some src =>
    let q := (r.dependencies.getD []).foldl (depStep src) (mapEnsure p.1 src, p.2)
    (q.1, mapEnsure q.2 src)

/-- The function `buildDepsMaps(raw)` (App.jsx lines 71–98, identical in
`src/unnamed/part_000` lines 17–44): the forward `depsMap` and the
`reverseMap`, or two empty maps for a document without a resources
array. -/
def buildDepsMaps (raw : JDoc) : JMap × JMap :=
  match raw.resources with
  | none => ([], [])
  | some res => res.foldl buildStep ([], [])

/-- The function `normalizeType(s)` (App.jsx lines 8–10): `(s || "").trim()`; the model
works on strings, where `s || ""` is the identity. -/
def normalizeType (s : String) : String := strTrim s

/-- Lexicographic (code-point) comparison of character lists. -/
def charListLe : List Char → List Char → Bool
  | [], _ => true
  | _ :: _, [] => false
  | a :: as, b :: bs => if a = b then charListLe as bs else decide (a < b)

/-- Code-point `≤` on strings, the model of the `localeCompare` sort
order. -/
def strLe (a b : String) : Bool := charListLe a.data b.data

/-- Insertion of a string into a `strLe`-sorted list of strings. -/
def insertSorted (x : String) : List String → List String
  | [] => [x]
  | y :: ys => if strLe x y then x :: y :: ys else y :: insertSorted x ys

/-- The function `sortAlpha(arr)` (App.jsx lines 12–16) on lists of strings (the
`typeof x === "string"` filter is the identity there): sorting by
`localeCompare`, modelled by code-point order. -/
def sortAlpha (l : List String) : List String := l.foldr insertSorted []

/-- The list `allTypes` (App.jsx lines 232–235): the sorted union of the forward
and reverse key lists. -/
def allTypesOf (dm rm : JMap) : List String :=
  sortAlpha (jsSetOfList (dm.map (·.1) ++ rm.map (·.1)))

/-- Model of `s.includes(pat)` at one position: does `l` start with `pat`? -/
def charsStartWith : List Char → List Char → Bool
  | _, [] => true
  | [], _ :: _ => false
  | a :: as, b :: bs => a == b && charsStartWith as bs

/-- Model of `s.includes(pat)` over character lists. -/
def charsContain (pat : List Char) : List Char → Bool
  | [] => pat.isEmpty
  | c :: cs => charsStartWith (c :: cs) pat || charsContain pat cs

/-- Model of `s.includes(pat)` on strings. -/
def containsStr (s pat : String) : Bool := charsContain pat.data s.data

/-- The list `filteredTypes` (App.jsx lines 237–240, identical in
`src/unnamed/part_000` lines 127–130): lower-case the trimmed query; when
it is empty (JavaScript falsiness of the empty string) return the full
list, otherwise keep the types whose lower-cased name contains it. -/
def filteredTypes (allTypes : List String) (query : String) : List String :=
  let q := strToLower (normalizeType query)
  if q = "" then allTypes
  else allTypes.filter (fun t => containsStr (strToLower t) q)

/-- The lookup `dependsOn` (App.jsx lines 245–248): for an active type `t`,
`t ? sortAlpha([...(depsMap.get(t) || [])]) : []`; the empty string is
falsy. -/
def dependsOn (dm : JMap) (t : String) : List String :=
  if t = "" then [] else sortAlpha (valueAt dm t)

/-- The lookup `dependencyFor` (App.jsx lines 250–253): the reverse lookup, same
shape as `dependsOn`. -/
def dependencyFor (rm : JMap) (t : String) : List String :=
  if t = "" then [] else sortAlpha (valueAt rm t)

/-- The selection-relevant UI state: the search text and the committed
selection (App.jsx lines 107–108). -/
structure UIState where
  query : String
  selectedType : String
deriving DecidableEq, Repr

/-- The search field's `onInput` handler (App.jsx lines 294–297):
`setQuery(e.target.value); setSelectedType("")` — typing clears the
committed selection. -/
def onInput (_s : UIState) (text : String) : UIState :=
  { query := text, selectedType := "" }

/-- The click handler of a type row or neighbor pill (App.jsx lines
307–310, 349–352, 380–383): `setSelectedType(t); setQuery(t)`. -/
def pickType (_s : UIState) (t : String) : UIState :=
  { query := t, selectedType := t }

/-- The reset on a version change (App.jsx lines 224–225). -/
def resetSelection (_s : UIState) : UIState :=
  { query := "", selectedType := "" }

/-- Model of `const activeType = selectedType` (App.jsx line 243): only a click
sets a real selection. -/
def activeType (s : UIState) : String := s.selectedType

/-- What a details panel shows: the guidance text ("Select a type …") or
the looked-up neighbor list. -/
inductive PanelView where
  | guidance
  | results (items : List String)
deriving DecidableEq, Repr

/-- The "Depends on" panel body (App.jsx lines 342–366): guidance text
when no type is active, otherwise the `dependsOn` results. -/
def dependsOnPanel (dm : JMap) (s : UIState) : PanelView :=
  if activeType s = "" then .guidance
  else .results (dependsOn dm (activeType s))

/-- The "Dependency for" panel body (App.jsx lines 374–400). -/
def dependencyForPanel (rm : JMap) (s : UIState) : PanelView :=
  if activeType s = "" then .guidance
  else .results (dependencyFor rm (activeType s))

/-! ## Lemmas about the JavaScript-set helpers -/

theorem mem_insertLast {l : List String} {x y : String} :
    y ∈ insertLast l x ↔ y ∈ l ∨ y = x := by
  unfold insertLast
  split
  · rename_i h
    constructor
    · exact Or.inl
    · rintro (hy | rfl)
      · exact hy
      · exact h
  · simp [List.mem_append]

theorem insertLast_of_mem {l : List String} {x : String} (h : x ∈ l) :
    insertLast l x = l := by
  simp [insertLast, h]

theorem nodup_insertLast {l : List String} {x : String} (h : l.Nodup) :
    (insertLast l x).Nodup := by
  unfold insertLast
  split
  · exact h
  · rename_i hx
    simpa [List.nodup_append, h] using hx

theorem mem_foldl_insertLast {l acc : List String} {y : String} :
    y ∈ l.foldl insertLast acc ↔ y ∈ acc ∨ y ∈ l := by
  induction l generalizing acc with
  | nil => simp
  | cons a l ih =>
    simp only [List.foldl_cons, ih, mem_insertLast, List.mem_cons]
    tauto

theorem nodup_foldl_insertLast {l acc : List String} (h : acc.Nodup) :
    (l.foldl insertLast acc).Nodup := by
  induction l generalizing acc with
  | nil => exact h
  | cons a l ih => exact ih (nodup_insertLast h)

theorem mem_jsSetOfList {l : List String} {y : String} :
    y ∈ jsSetOfList l ↔ y ∈ l := by
  simp [jsSetOfList, mem_foldl_insertLast]

theorem nodup_jsSetOfList (l : List String) : (jsSetOfList l).Nodup :=
  nodup_foldl_insertLast List.nodup_nil

theorem foldl_insertLast_of_nodup {l acc : List String}
    (h : (acc ++ l).Nodup) : l.foldl insertLast acc = acc ++ l := by
  induction l generalizing acc with
  | nil => simp
  | cons a l ih =>
    have ha : a ∉ acc := by
      intro hmem
      exact (List.disjoint_of_nodup_append h) hmem (List.mem_cons_self a l)
    have h' : ((acc ++ [a]) ++ l).Nodup := by
      simpa [List.append_assoc] using h
    simp only [List.foldl_cons, insertLast, ha, if_neg, List.mem_append]
    rw [if_neg (by simp [ha, (List.nodup_cons.mp (h.sublist (List.sublist_append_right acc _))).1])]
    rw [ih h']
    simp [List.append_assoc]

theorem jsSetOfList_of_nodup {l : List String} (h : l.Nodup) :
    jsSetOfList l = l := by
  simpa [jsSetOfList] using foldl_insertLast_of_nodup (by simpa using h)

theorem mem_addFold {base : List String} {additions : List JEntry} {y : String} :
    y ∈ addFold base additions ↔
      y ∈ base ∨ ∃ s, JEntry.str s ∈ additions ∧ strTrim s ≠ "" ∧ y = strTrim s := by
  induction additions generalizing base with
  | nil => simp [addFold]
  | cons d ds ih =>
    cases d with
    | str s =>
      by_cases hs : strTrim s = ""
      · simp only [addFold, List.foldl_cons, hs, if_pos]
        rw [show (List.foldl _ base ds) = addFold base ds from rfl] at *
        rw [ih]
        constructor
        · rintro (h | ⟨u, hu, hu2, rfl⟩)
          · exact Or.inl h
          · exact Or.inr ⟨u, List.mem_cons_of_mem _ hu, hu2, rfl⟩
        · rintro (h | ⟨u, hu, hu2, rfl⟩)
          · exact Or.inl h
          · rcases List.mem_cons.mp hu with h' | h'
            · cases h'; exact absurd hs hu2
            · exact Or.inr ⟨u, h', hu2, rfl⟩
      · simp only [addFold, List.foldl_cons, hs, if_neg, not_false_iff]
        rw [show (List.foldl _ (insertLast base (strTrim s)) ds) = addFold (insertLast base (strTrim s)) ds from rfl]
        rw [ih, mem_insertLast]
        constructor
        · rintro ((h | rfl) | ⟨u, hu, hu2, rfl⟩)
          · exact Or.inl h
          · exact Or.inr ⟨s, List.mem_cons_self _ _, hs, rfl⟩
          · exact Or.inr ⟨u, List.mem_cons_of_mem _ hu, hu2, rfl⟩
        · rintro (h | ⟨u, hu, hu2, rfl⟩)
          · exact Or.inl (Or.inl h)
          · rcases List.mem_cons.mp hu with h' | h'
            · cases h'; exact Or.inl (Or.inr rfl)
            · exact Or.inr ⟨u, h', hu2, rfl⟩
    | nonstr n =>
      simp only [addFold, List.foldl_cons]
      rw [show (List.foldl _ base ds) = addFold base ds from rfl, ih]
      constructor
      · rintro (h | ⟨u, hu, hu2, rfl⟩)
        · exact Or.inl h
        · exact Or.inr ⟨u, List.mem_cons_of_mem _ hu, hu2, rfl⟩
      · rintro (h | ⟨u, hu, hu2, rfl⟩)
        · exact Or.inl h
        · rcases List.mem_cons.mp hu with h' | h'
          · cases h'
          · exact Or.inr ⟨u, h', hu2, rfl⟩

theorem nodup_addFold {base : List String} {additions : List JEntry}
    (h : base.Nodup) : (addFold base additions).Nodup := by
  induction additions generalizing base with
  | nil => exact h
  | cons d ds ih =>
    cases d with
    | str s =>
      by_cases hs : strTrim s = ""
      · simpa [addFold, hs] using ih h
      · simpa [addFold, hs] using ih (nodup_insertLast h)
    | nonstr n => simpa [addFold] using ih h

theorem addFold_of_absorbed {base : List String} {additions : List JEntry}
    (h : ∀ s, JEntry.str s ∈ additions → strTrim s ≠ "" → strTrim s ∈ base) :
    addFold base additions = base := by
  induction additions generalizing base with
  | nil => rfl
  | cons d ds ih =>
    cases d with
    | str s =>
      by_cases hs : strTrim s = ""
      · simp only [addFold, List.foldl_cons, hs, if_pos]
        exact ih fun u hu hu2 => h u (List.mem_cons_of_mem _ hu) hu2
      · have hmem : strTrim s ∈ base := h s (List.mem_cons_self _ _) hs
        simp only [addFold, List.foldl_cons, hs, if_neg, not_false_iff,
          insertLast_of_mem hmem]
        exact ih fun u hu hu2 => h u (List.mem_cons_of_mem _ hu) hu2
    | nonstr n =>
      simp only [addFold, List.foldl_cons]
      exact ih fun u hu hu2 => h u (List.mem_cons_of_mem _ hu) hu2

theorem base_subset_addFold {base : List String} {additions : List JEntry} :
    ∀ y ∈ base, y ∈ addFold base additions :=
  fun _ hy => mem_addFold.mpr (Or.inl hy)

/-! ## Lemmas about the per-record override update -/

theorem strEntries_map_str (L : List String) :
    strEntries (L.map JEntry.str) = L := by
  induction L with
  | nil => rfl
  | cons a L ih => simp [strEntries, JEntry.str?] at ih ⊢; exact ih

theorem updateRec_type (r : JRecord) (additions : List JEntry) :
    (updateRec r additions).type = r.type := rfl

/-- The list stored back by `updateRec`. -/
def updatedDeps (r : JRecord) (additions : List JEntry) : List String :=
  addFold (jsSetOfList (strEntries (r.dependencies.getD []))) additions

theorem updateRec_eq (r : JRecord) (additions : List JEntry) :
    updateRec r additions
      = { r with dependencies := some ((updatedDeps r additions).map JEntry.str) } := rfl

theorem nodup_updatedDeps (r : JRecord) (additions : List JEntry) :
    (updatedDeps r additions).Nodup :=
  nodup_addFold (nodup_jsSetOfList _)

theorem trim_mem_updatedDeps {r : JRecord} {additions : List JEntry} {s : String}
    (hs : JEntry.str s ∈ additions) (hne : strTrim s ≠ "") :
    strTrim s ∈ updatedDeps r additions :=
  mem_addFold.mpr (Or.inr ⟨s, hs, hne, rfl⟩)

theorem deps_subset_updatedDeps {r : JRecord} {additions : List JEntry} {y : String}
    (hy : y ∈ strEntries (r.dependencies.getD [])) :
    y ∈ updatedDeps r additions :=
  base_subset_addFold _ (mem_jsSetOfList.mpr hy)

/-- Updating a record that already stores a duplicate-free all-string list
absorbing every addition leaves that list unchanged. -/
theorem updatedDeps_stored (ty : Option String) (L : List String) (hN : L.Nodup)
    (additions : List JEntry)
    (habs : ∀ s, JEntry.str s ∈ additions → strTrim s ≠ "" → strTrim s ∈ L) :
    updatedDeps ⟨ty, some (L.map JEntry.str)⟩ additions = L := by
  unfold updatedDeps
  dsimp only
  rw [Option.getD_some, strEntries_map_str, jsSetOfList_of_nodup hN]
  exact addFold_of_absorbed habs

/-- A second identical update leaves the record fixed: the stored list is
duplicate-free, all-strings, and already contains every addition. -/
theorem updateRec_idem (r : JRecord) (additions : List JEntry) :
    updateRec (updateRec r additions) additions = updateRec r additions := by
  have h2 : updateRec r additions
      = ⟨r.type, some ((updatedDeps r additions).map JEntry.str)⟩ := rfl
  rw [h2]
  have h3 : updateRec (⟨r.type, some ((updatedDeps r additions).map JEntry.str)⟩ : JRecord)
        additions
      = ⟨r.type, some ((updatedDeps
          (⟨r.type, some ((updatedDeps r additions).map JEntry.str)⟩ : JRecord)
          additions).map JEntry.str)⟩ := rfl
  rw [h3, updatedDeps_stored r.type (updatedDeps r additions)
    (nodup_updatedDeps r additions) additions
    (fun _s hs hne => trim_mem_updatedDeps hs hne)]

/-- Once a record absorbs `additions` (updating it with them is a no-op),
it still absorbs them after being updated with any other additions. -/
theorem updateRec_stable {r : JRecord} {additions : List JEntry}
    (h : updateRec r additions = r) (additions' : List JEntry) :
    updateRec (updateRec r additions') additions = updateRec r additions' := by
  have hdep : r.dependencies = some ((updatedDeps r additions).map JEntry.str) := by
    conv_lhs => rw [← h]
    rfl
  have habs : ∀ s, JEntry.str s ∈ additions → strTrim s ≠ "" →
      strTrim s ∈ updatedDeps r additions' := by
    intro s hs hne
    have hmem : strTrim s ∈ strEntries (r.dependencies.getD []) := by
      rw [hdep]
      simpa [strEntries_map_str] using trim_mem_updatedDeps (r := r) hs hne
    exact deps_subset_updatedDeps hmem
  have h2 : updateRec r additions'
      = ⟨r.type, some ((updatedDeps r additions').map JEntry.str)⟩ := rfl
  rw [h2]
  have h3 : updateRec (⟨r.type, some ((updatedDeps r additions').map JEntry.str)⟩ : JRecord)
        additions
      = ⟨r.type, some ((updatedDeps
          (⟨r.type, some ((updatedDeps r additions').map JEntry.str)⟩ : JRecord)
          additions).map JEntry.str)⟩ := rfl
  rw [h3, updatedDeps_stored r.type (updatedDeps r additions')
    (nodup_updatedDeps r additions') additions habs]

/-! ## Lemmas about the last-record update -/

/-- The record that `byType.get(t)` refers to: the last element of the
resources list whose `type` field is the string `t`. -/
def lastOfType (res : List JRecord) (t : String) : Option JRecord :=
  match res with
  | [] => none
  | r :: rest =>
    match lastOfType rest t with
    | some x => some x
    | none => if r.type == some t then some r else none

theorem lastOfType_isSome (res : List JRecord) (t : String) :
    (lastOfType res t).isSome = res.any (fun x => x.type == some t) := by
  induction res with
  | nil => rfl
  | cons r rest ih =>
    unfold lastOfType
    cases hl : lastOfType rest t with
    | some x =>
      have : rest.any (fun x => x.type == some t) = true := by
        rw [← ih, hl]; rfl
      simp [this]
    | none =>
      have : rest.any (fun x => x.type == some t) = false := by
        rw [← ih, hl]; rfl
      by_cases ht : r.type == some t
      · simp [ht, this]
      · simp [ht, this]

theorem lastOfType_eq_none_of_any_false {res : List JRecord} {t : String}
    (h : res.any (fun x => x.type == some t) = false) : lastOfType res t = none := by
  have := lastOfType_isSome res t
  rw [h] at this
  exact Option.not_isSome_iff_eq_none.mp (by simp [this])

theorem updateLastOfType_types (res : List JRecord) (t : String) (a : List JEntry) :
    (updateLastOfType res t a).map (·.type) = res.map (·.type) := by
  induction res with
  | nil => rfl
  | cons r rest ih =>
    unfold updateLastOfType
    by_cases hany : rest.any (fun x => x.type == some t) = true
    · simp [hany, ih]
    · simp only [Bool.not_eq_true] at hany
      by_cases ht : (r.type == some t) = true
      · simp [hany, ht, updateRec_type]
      · simp [hany, ht]

theorem any_type_updateLastOfType (res : List JRecord) (t t' : String)
    (a : List JEntry) :
    (updateLastOfType res t' a).any (fun x => x.type == some t)
      = res.any (fun x => x.type == some t) := by
  have h1 : ∀ l : List JRecord,
      l.any (fun x => x.type == some t) = (l.map (·.type)).any (fun o => o == some t) := by
    intro l
    induction l with
    | nil => rfl
    | cons y l ih => simp [ih]
  rw [h1, h1, updateLastOfType_types]

/-- L3: no record of type `t` — the update is a no-op. -/
theorem updateLastOfType_of_none {res : List JRecord} {t : String}
    (h : lastOfType res t = none) (a : List JEntry) :
    updateLastOfType res t a = res := by
  induction res with
  | nil => rfl
  | cons r rest ih =>
    unfold lastOfType at h
    unfold updateLastOfType
    cases hl : lastOfType rest t with
    | some x => rw [hl] at h; exact absurd h (by simp)
    | none =>
      rw [hl] at h
      have hany : rest.any (fun x => x.type == some t) = false := by
        have := lastOfType_isSome rest t
        rw [hl] at this
        exact this.symm
      by_cases ht : (r.type == some t) = true
      · rw [if_pos ht] at h; exact absurd h (by simp)
      · simp [hany, ht, ih hl]

/-- L2: updating shifts `lastOfType` through `updateRec`. -/
theorem lastOfType_updateLastOfType (res : List JRecord) (t : String)
    (a : List JEntry) :
    lastOfType (updateLastOfType res t a) t
      = (lastOfType res t).map (fun r => updateRec r a) := by
  induction res with
  | nil => rfl
  | cons r rest ih =>
    by_cases hany : rest.any (fun x => x.type == some t) = true
    · have hsome : (lastOfType rest t).isSome = true := by
        rw [lastOfType_isSome, hany]
      obtain ⟨x, hx⟩ := Option.isSome_iff_exists.mp hsome
      unfold updateLastOfType
      rw [if_pos hany]
      unfold lastOfType
      rw [ih, hx]
      rfl
    · simp only [Bool.not_eq_true] at hany
      have hnone : lastOfType rest t = none := lastOfType_eq_none_of_any_false hany
      unfold updateLastOfType
      rw [if_neg (by simp [hany])]
      by_cases ht : (r.type == some t) = true
      · rw [if_pos ht]
        unfold lastOfType
        rw [hnone]
        have ht' : ((updateRec r a).type == some t) = true := by
          rw [updateRec_type]; exact ht
        simp [hnone, ht, ht']
      · rw [if_neg ht]
        unfold lastOfType
        rw [hnone]
        simp [hnone, ht]

/-- L1: updating a different type does not move `lastOfType`. -/
theorem lastOfType_updateLastOfType_ne (res : List JRecord) {t t' : String}
    (hne : t' ≠ t) (a : List JEntry) :
    lastOfType (updateLastOfType res t' a) t = lastOfType res t := by
  induction res with
  | nil => rfl
  | cons r rest ih =>
    by_cases hany : rest.any (fun x => x.type == some t') = true
    · unfold updateLastOfType
      rw [if_pos hany]
      unfold lastOfType
      rw [ih]
    · simp only [Bool.not_eq_true] at hany
      unfold updateLastOfType
      rw [if_neg (by simp [hany])]
      by_cases ht : (r.type == some t') = true
      · rw [if_pos ht]
        unfold lastOfType
        have hrt : (r.type == some t) = false := by
          have : r.type = some t' := by simpa using ht
          simp [this, hne]
        have hrt' : ((updateRec r a).type == some t) = false := by
          rw [updateRec_type]; exact hrt
        simp [hrt, hrt']
      · rw [if_neg ht]

/-- L4: if the last record of type `t` absorbs the additions, the whole
update is a no-op. -/
theorem updateLastOfType_of_absorbed {res : List JRecord} {t : String}
    {r : JRecord} {a : List JEntry}
    (hl : lastOfType res t = some r) (habs : updateRec r a = r) :
    updateLastOfType res t a = res := by
  induction res with
  | nil => simp [lastOfType] at hl
  | cons x rest ih =>
    unfold lastOfType at hl
    cases hrest : lastOfType rest t with
    | some y =>
      rw [hrest] at hl
      have hy : y = r := by simpa using hl
      subst hy
      have hany : rest.any (fun z => z.type == some t) = true := by
        rw [← lastOfType_isSome, hrest]; rfl
      unfold updateLastOfType
      rw [if_pos hany, ih hrest]
    | none =>
      rw [hrest] at hl
      have hany : rest.any (fun z => z.type == some t) = false := by
        rw [← lastOfType_isSome, hrest]; rfl
      by_cases ht : (x.type == some t) = true
      · rw [if_pos ht] at hl
        have hx : x = r := by simpa using hl
        subst hx
        unfold updateLastOfType
        rw [if_neg (by simp [hany]), if_pos ht, habs]
      · rw [if_neg ht] at hl
        exact absurd hl (by simp)

/-- L5: conversely, a no-op update means the last record of type `t`
absorbs the additions. -/
theorem absorbed_of_updateLastOfType {res : List JRecord} {t : String}
    {r : JRecord} {a : List JEntry}
    (hl : lastOfType res t = some r) (heq : updateLastOfType res t a = res) :
    updateRec r a = r := by
  induction res with
  | nil => simp [lastOfType] at hl
  | cons x rest ih =>
    unfold lastOfType at hl
    cases hrest : lastOfType rest t with
    | some y =>
      rw [hrest] at hl
      have hy : y = r := by simpa using hl
      subst hy
      have hany : rest.any (fun z => z.type == some t) = true := by
        rw [← lastOfType_isSome, hrest]; rfl
      unfold updateLastOfType at heq
      rw [if_pos hany] at heq
      exact ih hrest (by simpa using heq)
    | none =>
      rw [hrest] at hl
      have hany : rest.any (fun z => z.type == some t) = false := by
        rw [← lastOfType_isSome, hrest]; rfl
      by_cases ht : (x.type == some t) = true
      · rw [if_pos ht] at hl
        have hx : x = r := by simpa using hl
        subst hx
        unfold updateLastOfType at heq
        rw [if_neg (by simp [hany]), if_pos ht] at heq
        exact (List.cons.inj heq).1
      · rw [if_neg ht] at hl
        exact absurd hl (by simp)

/-! ## Idempotence of the addDependencies pass -/

/-- One override entry applied twice in a row is the same as once. -/
theorem addStep_idem (res : List JRecord) (e : String × Option (List JEntry)) :
    addStep (addStep res e) e = addStep res e := by
  obtain ⟨t, o⟩ := e
  cases o with
  | none => rfl
  | some a =>
    show updateLastOfType (updateLastOfType res t a) t a = updateLastOfType res t a
    cases hl : lastOfType res t with
    | none =>
      have h2 : lastOfType (updateLastOfType res t a) t = none := by
        rw [lastOfType_updateLastOfType, hl]; rfl
      exact updateLastOfType_of_none h2 a
    | some r =>
      have h2 : lastOfType (updateLastOfType res t a) t = some (updateRec r a) := by
        rw [lastOfType_updateLastOfType, hl]; rfl
      exact updateLastOfType_of_absorbed h2 (updateRec_idem r a)

/-- A list that absorbs an override entry keeps absorbing it after any
other entry is applied. -/
theorem addStep_stable {res : List JRecord} {e : String × Option (List JEntry)}
    (h : addStep res e = res) (e' : String × Option (List JEntry)) :
    addStep (addStep res e') e = addStep res e' := by
  obtain ⟨t, o⟩ := e
  cases o with
  | none => rfl
  | some a =>
    obtain ⟨t', o'⟩ := e'
    cases o' with
    | none => exact h
    | some a' =>
      show updateLastOfType (updateLastOfType res t' a') t a = updateLastOfType res t' a'
      have h' : updateLastOfType res t a = res := h
      by_cases hte : t' = t
      · subst hte
        cases hl : lastOfType res t' with
        | none =>
          have h2 : lastOfType (updateLastOfType res t' a') t' = none := by
            rw [lastOfType_updateLastOfType, hl]; rfl
          exact updateLastOfType_of_none h2 a
        | some r =>
          have habs : updateRec r a = r := absorbed_of_updateLastOfType hl h'
          have h2 : lastOfType (updateLastOfType res t' a') t'
              = some (updateRec r a') := by
            rw [lastOfType_updateLastOfType, hl]; rfl
          exact updateLastOfType_of_absorbed h2 (updateRec_stable habs a')
      · have h2 : lastOfType (updateLastOfType res t' a') t = lastOfType res t :=
          lastOfType_updateLastOfType_ne res hte a'
        cases hl : lastOfType res t with
        | none =>
          rw [hl] at h2
          exact updateLastOfType_of_none h2 a
        | some r =>
          rw [hl] at h2
          have habs : updateRec r a = r := absorbed_of_updateLastOfType hl h'
          exact updateLastOfType_of_absorbed h2 habs

/-- Absorption survives a whole pass of further entries. -/
theorem addStep_applyAdds_stable {res : List JRecord}
    {e : String × Option (List JEntry)} (h : addStep res e = res)
    (entries : List (String × Option (List JEntry))) :
    addStep (applyAdds res entries) e = applyAdds res entries := by
  induction entries generalizing res with
  | nil => exact h
  | cons e' entries ih =>
    show addStep (applyAdds (addStep res e') entries) e = applyAdds (addStep res e') entries
    exact ih (addStep_stable h e')

/-- After a full pass, every entry of the pass is absorbed. -/
theorem applyAdds_absorbs_mem {e : String × Option (List JEntry)}
    {entries : List (String × Option (List JEntry))} (he : e ∈ entries)
    (res : List JRecord) :
    addStep (applyAdds res entries) e = applyAdds res entries := by
  induction entries generalizing res with
  | nil => cases he
  | cons e' entries ih =>
    rcases List.mem_cons.mp he with rfl | hmem
    · show addStep (applyAdds (addStep res e) entries) e = applyAdds (addStep res e) entries
      exact addStep_applyAdds_stable (addStep_idem res e) entries
    · exact ih hmem (addStep res e')

/-- A list absorbing every entry is a fixed point of the pass. -/
theorem applyAdds_of_sat {res : List JRecord}
    {entries : List (String × Option (List JEntry))}
    (h : ∀ e ∈ entries, addStep res e = res) : applyAdds res entries = res := by
  induction entries with
  | nil => rfl
  | cons e' entries ih =>
    show applyAdds (addStep res e') entries = res
    rw [h e' (List.mem_cons_self _ _)]
    exact ih fun e he => h e (List.mem_cons_of_mem _ he)

/-- The addDependencies pass is idempotent. -/
theorem applyAdds_idem (res : List JRecord)
    (entries : List (String × Option (List JEntry))) :
    applyAdds (applyAdds res entries) entries = applyAdds res entries :=
  applyAdds_of_sat fun _ he => applyAdds_absorbs_mem he res

/-! ## Lemmas about the map model -/

theorem mapHas_append (m₁ m₂ : JMap) (k : String) :
    mapHas (m₁ ++ m₂) k = (mapHas m₁ k || mapHas m₂ k) := by
  simp [mapHas, List.any_append]

theorem mapHas_ensure (m : JMap) (k k' : String) :
    mapHas (mapEnsure m k) k' = (mapHas m k' || (k == k')) := by
  unfold mapEnsure
  by_cases h : mapHas m k = true
  · rw [if_pos h]
    by_cases hk : k = k'
    · subst hk; simp [h]
    · simp [hk]
  · rw [if_neg h, mapHas_append]
    simp [mapHas]

theorem mapAddTo_cons (p : String × List String) (m : JMap) (k v : String) :
    mapAddTo (p :: m) k v
      = (if (p.1 == k) = true then (p.1, insertLast p.2 v) else p) :: mapAddTo m k v := rfl

theorem mapHas_addTo (m : JMap) (k v : String) (k' : String) :
    mapHas (mapAddTo m k v) k' = mapHas m k' := by
  induction m with
  | nil => rfl
  | cons p m ih =>
    rw [mapAddTo_cons]
    by_cases hp : (p.1 == k) = true
    · rw [if_pos hp]
      show ((p.1 == k') || mapHas (mapAddTo m k v) k') = ((p.1 == k') || mapHas m k')
      rw [ih]
    · rw [if_neg hp]
      show ((p.1 == k') || mapHas (mapAddTo m k v) k') = ((p.1 == k') || mapHas m k')
      rw [ih]

theorem mapGet_of_has_false {m : JMap} {k : String} (h : mapHas m k = false) :
    mapGet m k = none := by
  induction m with
  | nil => rfl
  | cons p m ih =>
    unfold mapHas at h
    simp only [List.any_cons, Bool.or_eq_false_iff] at h
    unfold mapGet
    rw [List.find?_cons_of_neg _ (by simp [h.1])]
    exact ih h.2

theorem valueAt_of_has_false {m : JMap} {k : String} (h : mapHas m k = false) :
    valueAt m k = [] := by
  simp [valueAt, mapGet_of_has_false h]

theorem mapGet_append (m₁ m₂ : JMap) (k : String) :
    mapGet (m₁ ++ m₂) k
      = match mapGet m₁ k with
        | some v => some v
        | none => mapGet m₂ k := by
  induction m₁ with
  | nil => simp [mapGet]
  | cons p m ih =>
    by_cases hp : (p.1 == k) = true
    · simp [mapGet, List.find?_cons_of_pos, hp]
    · unfold mapGet at *
      rw [List.cons_append, List.find?_cons_of_neg _ (by simp_all),
        List.find?_cons_of_neg _ (by simp_all)]
      exact ih

theorem valueAt_ensure (m : JMap) (k k' : String) :
    valueAt (mapEnsure m k) k' = valueAt m k' := by
  unfold mapEnsure
  by_cases h : mapHas m k = true
  · rw [if_pos h]
  · rw [if_neg h]
    unfold valueAt
    rw [mapGet_append]
    cases hg : mapGet m k' with
    | some v => rfl
    | none =>
      by_cases hk : (k == k') = true
      · simp [mapGet, hk]
      · simp [mapGet, hk]

theorem mapGet_cons (p : String × List String) (m : JMap) (k : String) :
    mapGet (p :: m) k = if (p.1 == k) = true then some p.2 else mapGet m k := by
  unfold mapGet
  by_cases hp : (p.1 == k) = true
  · have h1 : List.find? (fun q => q.1 == k) (p :: m) = some p :=
      List.find?_cons_of_pos _ hp
    rw [if_pos hp, h1]
    rfl
  · have h1 : List.find? (fun q => q.1 == k) (p :: m) = List.find? (fun q => q.1 == k) m :=
      List.find?_cons_of_neg _ hp
    rw [if_neg hp, h1]

theorem mapGet_addTo_ne (m : JMap) {k k' : String} (hne : k ≠ k') (v : String) :
    mapGet (mapAddTo m k v) k' = mapGet m k' := by
  induction m with
  | nil => rfl
  | cons p m ih =>
    rw [mapAddTo_cons]
    by_cases hp : (p.1 == k) = true
    · have hpk : p.1 = k := by simpa using hp
      have hp' : (p.1 == k') = false := by simp [hpk, hne]
      rw [if_pos hp, mapGet_cons, mapGet_cons]
      simp only [hp', Bool.false_eq_true, if_false]
      exact ih
    · rw [if_neg hp, mapGet_cons, mapGet_cons]
      by_cases hp' : (p.1 == k') = true
      · rw [if_pos hp', if_pos hp']
      · rw [if_neg hp', if_neg hp']
        exact ih

theorem valueAt_addTo_ne (m : JMap) {k k' : String} (hne : k ≠ k') (v : String) :
    valueAt (mapAddTo m k v) k' = valueAt m k' := by
  simp [valueAt, mapGet_addTo_ne m hne v]

theorem valueAt_addTo_self {m : JMap} {k : String} (h : mapHas m k = true)
    (v : String) :
    valueAt (mapAddTo m k v) k = insertLast (valueAt m k) v := by
  induction m with
  | nil => simp [mapHas] at h
  | cons p m ih =>
    rw [mapAddTo_cons]
    by_cases hp : (p.1 == k) = true
    · rw [if_pos hp]
      unfold valueAt
      rw [mapGet_cons, mapGet_cons]
      simp only [hp, if_pos]
      rfl
    · have h' : mapHas m k = true := by
        have hh : ((p.1 == k) || mapHas m k) = true := h
        rcases (by simpa using hh : (p.1 == k) = true ∨ mapHas m k = true) with h1 | h2
        · exact absurd h1 hp
        · exact h2
      rw [if_neg hp]
      unfold valueAt
      rw [mapGet_cons, mapGet_cons, if_neg hp, if_neg hp]
      exact ih h'

/-! ## Characterizing the graph builder -/

theorem depFold_fst_has (src : String) (ds : List JEntry) (p : JMap × JMap)
    (k : String) :
    mapHas (ds.foldl (depStep src) p).1 k = mapHas p.1 k := by
  induction ds generalizing p with
  | nil => rfl
  | cons d ds ih =>
    cases d with
    | nonstr n =>
      simp only [List.foldl_cons, depStep]
      exact ih p
    | str s =>
      simp only [List.foldl_cons, depStep]
      rw [ih]
      exact mapHas_addTo p.1 src s k

theorem depFold_snd_has (src : String) (ds : List JEntry) (p : JMap × JMap)
    (k : String) :
    mapHas (ds.foldl (depStep src) p).2 k = true ↔
      mapHas p.2 k = true ∨ JEntry.str k ∈ ds := by
  induction ds generalizing p with
  | nil => simp
  | cons d ds ih =>
    cases d with
    | nonstr n =>
      simp only [List.foldl_cons, depStep]
      rw [ih]
      simp
    | str s =>
      simp only [List.foldl_cons, depStep]
      rw [ih]
      dsimp only
      rw [mapHas_addTo, mapHas_ensure]
      simp only [Bool.or_eq_true, beq_iff_eq, List.mem_cons, JEntry.str.injEq]
      constructor
      · rintro ((h | rfl) | h)
        · exact Or.inl h
        · exact Or.inr (Or.inl rfl)
        · exact Or.inr (Or.inr h)
      · rintro (h | (rfl | h))
        · exact Or.inl (Or.inl h)
        · exact Or.inl (Or.inr rfl)
        · exact Or.inr h

theorem depFold_fst_valueAt_ne (src : String) (ds : List JEntry) (p : JMap × JMap)
    {k : String} (hne : src ≠ k) :
    valueAt (ds.foldl (depStep src) p).1 k = valueAt p.1 k := by
  induction ds generalizing p with
  | nil => rfl
  | cons d ds ih =>
    cases d with
    | nonstr n =>
      simp only [List.foldl_cons, depStep]
      exact ih p
    | str s =>
      simp only [List.foldl_cons, depStep]
      rw [ih]
      exact valueAt_addTo_ne p.1 hne s

theorem depFold_fst_valueAt_self (src : String) (ds : List JEntry) (p : JMap × JMap)
    (h : mapHas p.1 src = true) (y : String) :
    y ∈ valueAt (ds.foldl (depStep src) p).1 src ↔
      y ∈ valueAt p.1 src ∨ JEntry.str y ∈ ds := by
  induction ds generalizing p with
  | nil => simp
  | cons d ds ih =>
    cases d with
    | nonstr n =>
      simp only [List.foldl_cons, depStep]
      rw [ih p h]
      simp
    | str s =>
      simp only [List.foldl_cons, depStep]
      have h' : mapHas (mapAddTo p.1 src s, mapAddTo (mapEnsure p.2 s) s src).1 src = true := by
        dsimp only
        rw [mapHas_addTo]
        exact h
      rw [ih _ h']
      dsimp only
      rw [valueAt_addTo_self h s, mem_insertLast]
      simp only [List.mem_cons, JEntry.str.injEq]
      constructor
      · rintro ((h1 | rfl) | h1)
        · exact Or.inl h1
        · exact Or.inr (Or.inl rfl)
        · exact Or.inr (Or.inr h1)
      · rintro (h1 | (rfl | h1))
        · exact Or.inl (Or.inl h1)
        · exact Or.inl (Or.inr rfl)
        · exact Or.inr h1

theorem buildStep_of_type_none {p : JMap × JMap} {r : JRecord}
    (hr : r.type = none) : buildStep p r = p := by
  unfold buildStep
  rw [hr]

theorem buildStep_fst_has (p : JMap × JMap) (r : JRecord) (k : String) :
    mapHas (buildStep p r).1 k = true ↔
      mapHas p.1 k = true ∨ r.type = some k := by
  cases hr : r.type with
  | none =>
    rw [buildStep_of_type_none hr]
    simp [hr]
  | some src =>
    have h1 : (buildStep p r).1
        = ((r.dependencies.getD []).foldl (depStep src) (mapEnsure p.1 src, p.2)).1 := by
      unfold buildStep
      rw [hr]
    rw [h1, depFold_fst_has]
    dsimp only
    rw [mapHas_ensure]
    simp only [Bool.or_eq_true, beq_iff_eq, hr, Option.some.injEq]

theorem buildStep_snd_has (p : JMap × JMap) (r : JRecord) (k : String) :
    mapHas (buildStep p r).2 k = true ↔
      mapHas p.2 k = true ∨ r.type = some k ∨
        (r.type.isSome = true ∧ JEntry.str k ∈ r.dependencies.getD []) := by
  cases hr : r.type with
  | none =>
    rw [buildStep_of_type_none hr]
    simp [hr]
  | some src =>
    have h1 : (buildStep p r).2
        = mapEnsure
            ((r.dependencies.getD []).foldl (depStep src) (mapEnsure p.1 src, p.2)).2 src := by
      unfold buildStep
      rw [hr]
    rw [h1]
    rw [show mapHas (mapEnsure ((r.dependencies.getD []).foldl (depStep src)
        (mapEnsure p.1 src, p.2)).2 src) k
      = (mapHas ((r.dependencies.getD []).foldl (depStep src)
          (mapEnsure p.1 src, p.2)).2 k || (src == k)) from mapHas_ensure _ _ _]
    rw [Bool.or_eq_true, depFold_snd_has]
    dsimp only
    simp only [beq_iff_eq, hr, Option.some.injEq, Option.isSome_some, true_and]
    tauto

theorem buildStep_fst_mem (p : JMap × JMap) (r : JRecord) (k y : String) :
    y ∈ valueAt (buildStep p r).1 k ↔
      y ∈ valueAt p.1 k ∨ (r.type = some k ∧ JEntry.str y ∈ r.dependencies.getD []) := by
  cases hr : r.type with
  | none =>
    rw [buildStep_of_type_none hr]
    simp [hr]
  | some src =>
    have h1 : (buildStep p r).1
        = ((r.dependencies.getD []).foldl (depStep src) (mapEnsure p.1 src, p.2)).1 := by
      unfold buildStep
      rw [hr]
    rw [h1]
    by_cases hsk : src = k
    · subst hsk
      have hhas : mapHas (mapEnsure p.1 src, p.2).1 src = true := by
        dsimp only
        rw [mapHas_ensure]
        simp
      rw [depFold_fst_valueAt_self src _ _ hhas]
      dsimp only
      rw [valueAt_ensure]
      simp [hr]
    · rw [depFold_fst_valueAt_ne src _ _ hsk]
      dsimp only
      rw [valueAt_ensure]
      simp only [hr, Option.some.injEq]
      constructor
      · exact Or.inl
      · rintro (h | ⟨rfl, h2⟩)
        · exact h
        · exact absurd rfl hsk

theorem buildFold_fst_has (res : List JRecord) (p : JMap × JMap) (k : String) :
    mapHas (res.foldl buildStep p).1 k = true ↔
      mapHas p.1 k = true ∨ ∃ r ∈ res, r.type = some k := by
  induction res generalizing p with
  | nil => simp
  | cons r res ih =>
    rw [List.foldl_cons, ih, buildStep_fst_has]
    simp only [List.mem_cons]
    constructor
    · rintro ((h | h) | ⟨x, hx, hx2⟩)
      · exact Or.inl h
      · exact Or.inr ⟨r, Or.inl rfl, h⟩
      · exact Or.inr ⟨x, Or.inr hx, hx2⟩
    · rintro (h | ⟨x, (rfl | hx), hx2⟩)
      · exact Or.inl (Or.inl h)
      · exact Or.inl (Or.inr hx2)
      · exact Or.inr ⟨x, hx, hx2⟩

theorem buildFold_snd_has (res : List JRecord) (p : JMap × JMap) (k : String) :
    mapHas (res.foldl buildStep p).2 k = true ↔
      mapHas p.2 k = true ∨ ∃ r ∈ res, (r.type = some k ∨
        (r.type.isSome = true ∧ JEntry.str k ∈ r.dependencies.getD [])) := by
  induction res generalizing p with
  | nil => simp
  | cons r res ih =>
    rw [List.foldl_cons, ih, buildStep_snd_has]
    simp only [List.mem_cons]
    constructor
    · rintro ((h | h | h) | ⟨x, hx, hx2⟩)
      · exact Or.inl h
      · exact Or.inr ⟨r, Or.inl rfl, Or.inl h⟩
      · exact Or.inr ⟨r, Or.inl rfl, Or.inr h⟩
      · exact Or.inr ⟨x, Or.inr hx, hx2⟩
    · rintro (h | ⟨x, (rfl | hx), hx2⟩)
      · exact Or.inl (Or.inl h)
      · rcases hx2 with h2 | h2
        · exact Or.inl (Or.inr (Or.inl h2))
        · exact Or.inl (Or.inr (Or.inr h2))
      · exact Or.inr ⟨x, hx, hx2⟩

theorem buildFold_fst_mem (res : List JRecord) (p : JMap × JMap) (k y : String) :
    y ∈ valueAt (res.foldl buildStep p).1 k ↔
      y ∈ valueAt p.1 k ∨
        ∃ r ∈ res, r.type = some k ∧ JEntry.str y ∈ r.dependencies.getD [] := by
  induction res generalizing p with
  | nil => simp
  | cons r res ih =>
    rw [List.foldl_cons, ih, buildStep_fst_mem]
    simp only [List.mem_cons]
    constructor
    · rintro ((h | h) | ⟨x, hx, hx2⟩)
      · exact Or.inl h
      · exact Or.inr ⟨r, Or.inl rfl, h⟩
      · exact Or.inr ⟨x, Or.inr hx, hx2⟩
    · rintro (h | ⟨x, (rfl | hx), hx2⟩)
      · exact Or.inl (Or.inl h)
      · exact Or.inl (Or.inr hx2)
      · exact Or.inr ⟨x, hx, hx2⟩

/-- Full characterization of the forward map's keys. -/
theorem buildDepsMaps_fst_has {raw : JDoc} {res : List JRecord}
    (hres : raw.resources = some res) (k : String) :
    mapHas (buildDepsMaps raw).1 k = true ↔ ∃ r ∈ res, r.type = some k := by
  unfold buildDepsMaps
  rw [hres]
  rw [buildFold_fst_has]
  simp [mapHas]

/-- Full characterization of the reverse map's keys. -/
theorem buildDepsMaps_snd_has {raw : JDoc} {res : List JRecord}
    (hres : raw.resources = some res) (k : String) :
    mapHas (buildDepsMaps raw).2 k = true ↔
      ∃ r ∈ res, (r.type = some k ∨
        (r.type.isSome = true ∧ JEntry.str k ∈ r.dependencies.getD [])) := by
  unfold buildDepsMaps
  rw [hres]
  rw [buildFold_snd_has]
  simp [mapHas]

/-- Full characterization of the forward map's adjacency sets. -/
theorem buildDepsMaps_fst_mem {raw : JDoc} {res : List JRecord}
    (hres : raw.resources = some res) (k y : String) :
    y ∈ valueAt (buildDepsMaps raw).1 k ↔
      ∃ r ∈ res, r.type = some k ∧ JEntry.str y ∈ r.dependencies.getD [] := by
  unfold buildDepsMaps
  rw [hres]
  rw [buildFold_fst_mem]
  simp [valueAt, mapGet]

/-! ## Reference-tracking model of the override applier

To settle the structural-independence claim we re-run `applyOverrides`
over an explicit heap of `dependencies` arrays: each array lives in a
`DepStore` cell and records hold cell addresses instead of inline lists.
`{...r}` (the shallow record copy) keeps the address unchanged;
`r.dependencies = [...set]` allocates a fresh cell at the end of the
store.  The original document's cells are never written. -/

/-- Heap of dependency arrays: address `a` holds `σ.getD a []`. -/
abbrev DepStore := List (List JEntry)

/-- A resources entry whose `dependencies` field is a reference:
`deps = some a` points at store cell `a`; `none` models an absent or
non-array field. -/
structure RecordRef where
  type : Option String
  deps : Option Nat
deriving DecidableEq, Repr

/-- A dependency document over the reference heap. -/
structure DocRef where
  resources : Option (List RecordRef)
deriving DecidableEq, Repr

/-- The addresses of the dependency arrays reachable from a document. -/
def depAddrs (d : DocRef) : List Nat :=
  (d.resources.getD []).filterMap (·.deps)

/-- Version of `updateRec` over the heap: read the current array from the store,
compute the new dependency list, allocate it in a fresh cell, and point
the (shallow-copied) record at that cell. -/
def updateRecRef (σ : DepStore) (r : RecordRef) (additions : List JEntry) :
    DepStore × RecordRef :=
  let current := match r.deps with
    | some a => σ.getD a []
    | none => []
  let final := (addFold (jsSetOfList (strEntries current)) additions).map JEntry.str
  (σ ++ [final], { r with deps := some σ.length })

/-- Version of `updateLastOfType` over the heap. -/
def updateLastOfTypeRef (σ : DepStore) (res : List RecordRef) (t : String)
    (additions : List JEntry) : DepStore × List RecordRef :=
  match res with
  | [] => (σ, [])
  | r :: rest =>
    if rest.any (fun x => x.type == some t) then
      let q := updateLastOfTypeRef σ rest t additions
      (q.1, r :: q.2)
    else if r.type == some t then
      let q := updateRecRef σ r additions
      (q.1, q.2 :: rest)
    else (σ, r :: rest)

/-- Version of `addStep` over the heap. -/
def addStepRef (p : DepStore × List RecordRef) (e : String × Option (List JEntry)) :
    DepStore × List RecordRef :=
  match e.2 with
  | none => p
  | some additions => updateLastOfTypeRef p.1 p.2 e.1 additions

/-- Version of `applyOverrides` over the heap: same control flow as `applyOverrides`,
threading the store through the addDependencies pass. -/
def applyOverridesRef (σ : DepStore) (raw : DocRef) (overrides : JOverrides) :
    DepStore × DocRef :=
  match raw.resources with
  | none => (σ, raw)
  | some res =>
    match overrides with
    | .notobj => (σ, raw)
    | .obj addM _ =>
      match addM with
      | none => (σ, raw)
      | some entries =>
        let q := entries.foldl addStepRef (σ, res)
        (q.1, { resources := some q.2 })

theorem updateLastOfTypeRef_store (σ : DepStore) (res : List RecordRef)
    (t : String) (additions : List JEntry) :
    ∃ ext, (updateLastOfTypeRef σ res t additions).1 = σ ++ ext := by
  induction res with
  | nil => exact ⟨[], by simp [updateLastOfTypeRef]⟩
  | cons r rest ih =>
    unfold updateLastOfTypeRef
    by_cases hany : rest.any (fun x => x.type == some t) = true
    · rw [if_pos hany]
      exact ih
    · rw [if_neg hany]
      by_cases ht : (r.type == some t) = true
      · rw [if_pos ht]
        exact ⟨_, rfl⟩
      · rw [if_neg ht]
        exact ⟨[], by simp⟩

theorem addStepRef_store (p : DepStore × List RecordRef)
    (e : String × Option (List JEntry)) :
    ∃ ext, (addStepRef p e).1 = p.1 ++ ext := by
  obtain ⟨t, o⟩ := e
  cases o with
  | none => exact ⟨[], by simp [addStepRef]⟩
  | some a => exact updateLastOfTypeRef_store p.1 p.2 t a

theorem foldl_addStepRef_store (entries : List (String × Option (List JEntry)))
    (p : DepStore × List RecordRef) :
    ∃ ext, (entries.foldl addStepRef p).1 = p.1 ++ ext := by
  induction entries generalizing p with
  | nil => exact ⟨[], by simp⟩
  | cons e entries ih =>
    rw [List.foldl_cons]
    obtain ⟨ext₁, h₁⟩ := addStepRef_store p e
    obtain ⟨ext₂, h₂⟩ := ih (addStepRef p e)
    exact ⟨ext₁ ++ ext₂, by rw [h₂, h₁, List.append_assoc]⟩

theorem applyOverridesRef_store (σ : DepStore) (raw : DocRef)
    (overrides : JOverrides) :
    ∃ ext, (applyOverridesRef σ raw overrides).1 = σ ++ ext := by
  unfold applyOverridesRef
  cases hres : raw.resources with
  | none => exact ⟨[], by simp⟩
  | some res =>
    cases overrides with
    | notobj => exact ⟨[], by simp⟩
    | obj addM repl =>
      cases addM with
      | none => exact ⟨[], by simp⟩
      | some entries => exact foldl_addStepRef_store entries (σ, res)

/-! ## Bridge lemmas for the query surface -/

theorem strToLower_eq_empty_iff (s : String) : strToLower s = "" ↔ s = "" := by
  rw [String.ext_iff, String.ext_iff]
  show s.data.map Char.toLower = [] ↔ s.data = []
  simp

theorem updateLastOfType_append (l₁ l₂ : List JRecord) (r : JRecord) {t : String}
    (ht : r.type = some t) (h₂ : ∀ x ∈ l₂, x.type ≠ some t)
    (additions : List JEntry) :
    updateLastOfType (l₁ ++ r :: l₂) t additions = l₁ ++ updateRec r additions :: l₂ := by
  induction l₁ with
  | nil =>
    have hany : l₂.any (fun x => x.type == some t) = false := by
      rw [List.any_eq_false]
      intro x hx
      simp [h₂ x hx]
    show updateLastOfType (r :: l₂) t additions = updateRec r additions :: l₂
    unfold updateLastOfType
    rw [if_neg (by simp [hany]), if_pos (by simp [ht])]
  | cons x l₁ ih =>
    have hany : (l₁ ++ r :: l₂).any (fun y => y.type == some t) = true :=
      List.any_eq_true.mpr ⟨r, by simp, by simp [ht]⟩
    show updateLastOfType (x :: (l₁ ++ r :: l₂)) t additions
        = x :: (l₁ ++ updateRec r additions :: l₂)
    unfold updateLastOfType
    rw [if_pos hany, ih]

/-! ## Concrete documents used by the claims -/

/-- The spec's replace scenario document: one record `A` depending on
`B_old`. -/
def docC1 : JDoc := ⟨some [⟨some "A", some [.str "B_old"]⟩]⟩

/-- The spec's replace scenario overrides: only a `replaceDependencies`
section, mapping `A`'s `B_old` to `B_new`. -/
def ovC1 : JOverrides := .obj none (some [("A", [("B_old", "B_new")])])

/-- A document with a single record whose `type` is the empty string. -/
def docC2 : JDoc := ⟨some [⟨some "", some []⟩]⟩

/-- A document with a single record whose `type` is not a string but whose
dependencies mention `X`. -/
def docC4 : JDoc := ⟨some [⟨none, some [.str "X"]⟩]⟩

/-- The spec's duplicate-type document: two records of type `A`, one
depending on `B`, one on `C`. -/
def docDup : JDoc := ⟨some [⟨some "A", some [.str "B"]⟩, ⟨some "A", some [.str "C"]⟩]⟩

/-- Overrides adding dependency `D` to type `A`. -/
def ovD : JOverrides := .obj (some [("A", some [.str "D"])]) none

/-- Heap for the sharing scenario: cell 0 holds `A`'s array `[B]`,
cell 1 holds `C`'s array `[D]`. -/
def storeC3 : DepStore := [[.str "B"], [.str "D"]]

/-- Document over `storeC3`: records `A` (cell 0) and `C` (cell 1). -/
def docR : DocRef := ⟨some [⟨some "A", some 0⟩, ⟨some "C", some 1⟩]⟩

/-- Overrides adding dependency `E` to type `A` only. -/
def ovR : JOverrides := .obj (some [("A", some [.str "E"])]) none

/-! ## Claims -/

/-- C1, counterexample: on the replace-scenario document and overrides,
`dependsOn("A")` is NOT `["B_new"]` — `applyOverrides` never reads
`replaceDependencies`, so the substitution claimed by the spec does not
happen. -/
theorem claimC1_counterexample :
    dependsOn (buildDepsMaps (applyOverrides docC1 ovC1)).1 "A" ≠ ["B_new"] := by
  decide

/-- C1, amended: the Override Applier does not support
`replaceDependencies`.  An overrides object whose `addDependencies`
section is absent (whatever its `replaceDependencies` says) leaves every
document unchanged, and in the spec's replace scenario `dependsOn("A")`
stays `["B_old"]`. -/
theorem claimC1_amended :
    (∀ (raw : JDoc) (repl : Option (List (String × List (String × String)))),
      applyOverrides raw (.obj none repl) = raw) ∧
    dependsOn (buildDepsMaps (applyOverrides docC1 ovC1)).1 "A" = ["B_old"] := by
  constructor
  · intro raw repl
    obtain ⟨resOpt⟩ := raw
    cases resOpt <;> rfl
  · decide

/-- C2, counterexample: a record whose `type` is the empty string `""` is
NOT skipped — it creates the node `""` in both maps, contradicting the
claim that such a record contributes nothing. -/
theorem claimC2_counterexample :
    buildDepsMaps docC2 = ([("", [])], [("", [])]) ∧
    mapHas (buildDepsMaps docC2).1 "" = true ∧
    mapHas (buildDepsMaps docC2).2 "" = true := by
  decide

/-- C2, amended: the Graph Builder skips a record exactly when its `type`
field is not a string (deleting such a record from the document leaves
both maps unchanged); a record whose `type` is the empty string is a
string-typed record and is processed normally, creating the node `""`. -/
theorem claimC2_amended :
    (∀ (l₁ l₂ : List JRecord) (r : JRecord), r.type = none →
      buildDepsMaps ⟨some (l₁ ++ r :: l₂)⟩ = buildDepsMaps ⟨some (l₁ ++ l₂)⟩) ∧
    mapHas (buildDepsMaps docC2).1 "" = true := by
  constructor
  · intro l₁ l₂ r hr
    show (l₁ ++ r :: l₂).foldl buildStep ([], []) = (l₁ ++ l₂).foldl buildStep ([], [])
    rw [List.foldl_append, List.foldl_append, List.foldl_cons, buildStep_of_type_none hr]
  · decide

/-- C2, witness: deleting a non-string-typed record concretely. -/
theorem claimC2_witness :
    buildDepsMaps ⟨some ([⟨some "A", some []⟩] ++ ⟨none, some [JEntry.str "X"]⟩ :: [])⟩
      = buildDepsMaps ⟨some ([⟨some "A", some []⟩] ++ [])⟩ :=
  claimC2_amended.1 [⟨some "A", some []⟩] [] ⟨none, some [JEntry.str "X"]⟩ rfl

/-- C3, counterexample: on a transforming run (`A` gains dependency `E`),
the returned document still shares the untouched record `C`'s
dependencies array (heap cell 1) with the original document — the output
is not structurally independent of the input. -/
theorem claimC3_counterexample :
    (applyOverridesRef storeC3 docR ovR).2 ≠ docR ∧
    (depAddrs (applyOverridesRef storeC3 docR ovR).2).any
      (fun a => a ∈ depAddrs docR) = true := by
  decide

/-- C3, amended: `applyOverrides` never mutates its inputs — every heap
cell that existed before the call holds the same array afterwards (new
arrays are only appended), and as a pure function of its arguments it is
deterministic; but the copy it returns is shallow: records not updated by
`addDependencies` keep referencing the original dependency arrays. -/
theorem claimC3_amended :
    ∀ (σ : DepStore) (raw : DocRef) (overrides : JOverrides) (a : Nat),
      a < σ.length →
      ((applyOverridesRef σ raw overrides).1).getD a [] = σ.getD a [] := by
  intro σ raw overrides a ha
  obtain ⟨ext, hext⟩ := applyOverridesRef_store σ raw overrides
  rw [hext]
  exact List.getD_append σ ext [] a ha

/-- C3, witness: cell 0 of the concrete heap is unchanged by the call. -/
theorem claimC3_witness :
    0 < storeC3.length ∧
    ((applyOverridesRef storeC3 docR ovR).1).getD 0 [] = storeC3.getD 0 [] :=
  ⟨by decide, claimC3_amended storeC3 docR ovR 0 (by decide)⟩

/-- C4, counterexample: in `docC4`, the identity `X` appears as a
dependencies entry (of a record whose `type` is not a string), yet the
builder returns two empty maps — `X` is not a key of `reverseMap`. -/
theorem claimC4_counterexample :
    buildDepsMaps docC4 = ([], []) ∧
    mapHas (buildDepsMaps docC4).2 "X" = false := by
  decide

/-- C4, amended: for every document, every record whose `type` is a string
puts that type into both `forwardMap` and `reverseMap`, and every string
entry of such a record's dependencies becomes a key of `reverseMap`
(dependencies of records with a non-string `type` are skipped with the
record). -/
theorem claimC4_amended :
    ∀ (raw : JDoc) (res : List JRecord), raw.resources = some res →
      ∀ r ∈ res, ∀ t, r.type = some t →
        mapHas (buildDepsMaps raw).1 t = true ∧
        mapHas (buildDepsMaps raw).2 t = true ∧
        ∀ s, JEntry.str s ∈ r.dependencies.getD [] →
          mapHas (buildDepsMaps raw).2 s = true := by
  intro raw res hres r hr t ht
  refine ⟨?_, ?_, ?_⟩
  · exact (buildDepsMaps_fst_has hres t).mpr ⟨r, hr, ht⟩
  · exact (buildDepsMaps_snd_has hres t).mpr ⟨r, hr, Or.inl ht⟩
  · intro s hs
    exact (buildDepsMaps_snd_has hres s).mpr ⟨r, hr, Or.inr ⟨by rw [ht]; rfl, hs⟩⟩

/-- C4, witness: the duplicate-type document concretely. -/
theorem claimC4_witness :
    mapHas (buildDepsMaps docDup).1 "A" = true ∧
    mapHas (buildDepsMaps docDup).2 "A" = true ∧
    mapHas (buildDepsMaps docDup).2 "B" = true := by
  have h := claimC4_amended docDup
    [⟨some "A", some [.str "B"]⟩, ⟨some "A", some [.str "C"]⟩] rfl
    ⟨some "A", some [.str "B"]⟩ (by decide) "A" rfl
  exact ⟨h.1, h.2.1, h.2.2 "B" (by decide)⟩

/-- C5: the forward map accumulates across duplicate types — an identity's
forward set contains exactly the string dependency entries of ALL records
bearing that type; concretely, two `A` records with `[B]` and `[C]` yield
`forwardMap["A"] = [B, C]`. -/
theorem claimC5 :
    (∀ (raw : JDoc) (res : List JRecord), raw.resources = some res →
      ∀ (t y : String),
        (y ∈ valueAt (buildDepsMaps raw).1 t ↔
          ∃ r ∈ res, r.type = some t ∧ JEntry.str y ∈ r.dependencies.getD [])) ∧
    valueAt (buildDepsMaps docDup).1 "A" = ["B", "C"] := by
  exact ⟨fun _ _ hres t y => buildDepsMaps_fst_mem hres t y, by decide⟩

/-- C5, witness: `B` is in `forwardMap["A"]` of the duplicate-type
document via the first record. -/
theorem claimC5_witness :
    "B" ∈ valueAt (buildDepsMaps docDup).1 "A" :=
  (claimC5.1 docDup [⟨some "A", some [.str "B"]⟩, ⟨some "A", some [.str "C"]⟩]
      rfl "A" "B").mpr
    ⟨⟨some "A", some [.str "B"]⟩, by decide, rfl, by decide⟩

/-- C6: the Override Applier is idempotent for addDependencies-only
overrides — applying the same overrides twice equals applying them
once. -/
theorem claimC6 :
    ∀ (doc : JDoc) (addM : Option (List (String × Option (List JEntry)))),
      applyOverrides (applyOverrides doc (.obj addM none)) (.obj addM none)
        = applyOverrides doc (.obj addM none) := by
  intro doc addM
  obtain ⟨resOpt⟩ := doc
  cases resOpt with
  | none => rfl
  | some res =>
    cases addM with
    | none => rfl
    | some entries =>
      show (⟨some (applyAdds (applyAdds res entries) entries)⟩ : JDoc)
          = ⟨some (applyAdds res entries)⟩
      rw [applyAdds_idem]

/-- C7: `filterTypes` keeps exactly the entries of the type list whose
lower-cased name contains the whitespace-trimmed, lower-cased query as a
substring, as a sublist (same order, no truncation, no ranking), and an
empty or whitespace-only query returns the full list unfiltered. -/
theorem claimC7 :
    ∀ (allT : List String) (query : String),
      (normalizeType query = "" → filteredTypes allT query = allT) ∧
      (normalizeType query ≠ "" →
        filteredTypes allT query
          = allT.filter
              (fun t => containsStr (strToLower t) (strToLower (normalizeType query)))) ∧
      List.Sublist (filteredTypes allT query) allT ∧
      (∀ t, t ∈ filteredTypes allT query ↔
        (t ∈ allT ∧ (normalizeType query = "" ∨
          containsStr (strToLower t) (strToLower (normalizeType query)) = true))) := by
  intro allT query
  have hdef : filteredTypes allT query
      = if strToLower (normalizeType query) = "" then allT
        else allT.filter
          (fun t => containsStr (strToLower t) (strToLower (normalizeType query))) := rfl
  by_cases hq : normalizeType query = ""
  · have hq2 : strToLower (normalizeType query) = "" := by rw [hq]; rfl
    have hfull : filteredTypes allT query = allT := by rw [hdef, if_pos hq2]
    refine ⟨fun _ => hfull, fun hne => absurd hq hne, ?_, ?_⟩
    · rw [hfull]
    · intro t
      rw [hfull]
      simp [hq]
  · have hq2 : strToLower (normalizeType query) ≠ "" := by
      intro h
      exact hq ((strToLower_eq_empty_iff _).mp h)
    have hfilter : filteredTypes allT query
        = allT.filter
            (fun t => containsStr (strToLower t) (strToLower (normalizeType query))) := by
      rw [hdef, if_neg hq2]
    refine ⟨fun h => absurd h hq, fun _ => hfilter, ?_, ?_⟩
    · rw [hfilter]
      exact List.filter_sublist _
    · intro t
      rw [hfilter, List.mem_filter]
      simp [hq]

/-- C7, witness: a whitespace-only query returns the full list, and the
query `b` keeps exactly `B`. -/
theorem claimC7_witness :
    normalizeType "  " = "" ∧ filteredTypes ["A", "B", "C"] "  " = ["A", "B", "C"] ∧
    normalizeType "b" ≠ "" ∧ filteredTypes ["A", "B", "C"] "b" = ["B"] := by
  refine ⟨by decide, (claimC7 ["A", "B", "C"] "  ").1 (by decide), by decide, ?_⟩
  rw [(claimC7 ["A", "B", "C"] "b").2.1 (by decide)]
  decide

/-- C8: `dependsOn` returns the empty sequence — without any map access
going wrong — whenever the queried type is the empty string or absent
from the forward map, and `dependencyFor` does the same over the reverse
map. -/
theorem claimC8 :
    ∀ (dm rm : JMap) (t : String),
      ((t = "" ∨ mapHas dm t = false) → dependsOn dm t = []) ∧
      ((t = "" ∨ mapHas rm t = false) → dependencyFor rm t = []) := by
  intro dm rm t
  constructor
  · rintro (rfl | h)
    · simp [dependsOn]
    · by_cases ht : t = ""
      · simp [dependsOn, ht]
      · unfold dependsOn
        rw [if_neg ht, valueAt_of_has_false h]
        rfl
  · rintro (rfl | h)
    · simp [dependencyFor]
    · by_cases ht : t = ""
      · simp [dependencyFor, ht]
      · unfold dependencyFor
        rw [if_neg ht, valueAt_of_has_false h]
        rfl

/-- C8, witness: an unknown type and the empty string concretely. -/
theorem claimC8_witness :
    mapHas [("A", ["B"])] "Z" = false ∧ dependsOn [("A", ["B"])] "Z" = [] ∧
    dependencyFor [("B", ["A"])] "" = [] :=
  ⟨by decide, (claimC8 [("A", ["B"])] [("B", ["A"])] "Z").1 (Or.inr (by decide)),
    (claimC8 [("A", ["B"])] [("B", ["A"])] "").2 (Or.inl rfl)⟩

/-- C9: typing into the search field never commits a selection — after any
`onInput`, the active type is empty, both detail panels render the
guidance text rather than lookup results, and the `dependsOn` /
`dependencyFor` computations short-circuit to the empty list without
consulting the maps. -/
theorem claimC9 :
    ∀ (dm rm : JMap) (s : UIState) (text : String),
      activeType (onInput s text) = "" ∧
      dependsOnPanel dm (onInput s text) = .guidance ∧
      dependencyForPanel rm (onInput s text) = .guidance ∧
      dependsOn dm (activeType (onInput s text)) = [] ∧
      dependencyFor rm (activeType (onInput s text)) = [] := by
  intro dm rm s text
  refine ⟨rfl, ?_, ?_, ?_, ?_⟩ <;>
    simp [dependsOnPanel, dependencyForPanel, activeType, onInput, dependsOn,
      dependencyFor]

/-- C10: when an addDependencies override names a type borne by several
records, only the LAST such record receives the additions — every other
record, in particular every earlier duplicate, is returned unchanged
(the `byType` index overwrites earlier occurrences). -/
theorem claimC10 :
    ∀ (l₁ l₂ : List JRecord) (r : JRecord) (t : String) (additions : List JEntry)
      (repl : Option (List (String × List (String × String)))),
      r.type = some t → (∀ x ∈ l₂, x.type ≠ some t) →
      applyOverrides ⟨some (l₁ ++ r :: l₂)⟩ (.obj (some [(t, some additions)]) repl)
        = ⟨some (l₁ ++ updateRec r additions :: l₂)⟩ := by
  intro l₁ l₂ r t additions repl ht h₂
  show (⟨some (updateLastOfType (l₁ ++ r :: l₂) t additions)⟩ : JDoc) = _
  rw [updateLastOfType_append l₁ l₂ r ht h₂ additions]

/-- C10, witness: in the duplicate-type document, adding `D` to `A`
changes only the second `A` record. -/
theorem claimC10_witness :
    applyOverrides docDup ovD
      = ⟨some [⟨some "A", some [.str "B"]⟩, ⟨some "A", some [.str "C", .str "D"]⟩]⟩ := by
  have h := claimC10 [⟨some "A", some [.str "B"]⟩] [] ⟨some "A", some [.str "C"]⟩ "A"
    [JEntry.str "D"] none rfl (by intro x hx; cases hx)
  exact h.trans (by decide)
